import Mathlib

/-!
ForwardList: a singly linked chain and its whole-chain algorithms.

A shallow embedding of `src/ForwardList.h`.

A chain of nodes reachable from a `Node*` is embedded as the `List` of the
values met when following `_next` up to `nullptr`; the null pointer is the
empty list.  The container (its only field is `_head`) is the chain that
starts at `_head`.  The element type `_Ty` is a type parameter `α`, its
`operator<=` a parameter `le : α → α → Bool` and its `operator==` a
parameter `eq : α → α → Bool`.  An operation that throws returns `Except`.
`size_type` is `std::size_t`, modelled as a natural number reduced modulo
`2 ^ 64` where the source lets it wrap.  An iterator is the index of the node
it points to, or `none` for the null pointer of `end()`.  Where the chain
left behind by a throwing call matters, a call yields an `Outcome`: the
result or exception together with the chain held when the call ended.
-/

namespace ForwardList

/-! ## Definitions -/

/-- The exceptions thrown by the container: `std::runtime_error` and
`std::out_of_range`, each with its message. -/
inductive Error where
  | runtime_error (what : String)
  | out_of_range (what : String)
  deriving DecidableEq, Repr

/-- The member `push_front` (lines 273-277): `_head = new Node(value, _head)`. -/
def push_front {α : Type} (value : α) (head : List α) : List α :=
  value :: head

/-- The member `pop_front` (lines 286-294): throws on a null `_head`, otherwise
`_head = _head->_next`. -/
def pop_front {α : Type} (head : List α) : Except Error (List α) :=
  match head with
  | [] => Except.error (Error.runtime_error "ForwardList is empty")
  | _ :: next => Except.ok next

/-- The loop of `reverse` (lines 428-433) on the window `prev`, `current`:
the current node is relinked in front of `prev` and the window advances. -/
def reverseLoop {α : Type} : List α → List α → List α
  | prev, [] => prev
  | prev, value :: next => reverseLoop (value :: prev) next

/-- The member `reverse` (lines 424-435): the loop started with `prev = nullptr`,
`current = _head`; `_head` becomes the final `prev`. -/
def reverse {α : Type} (head : List α) : List α :=
  reverseLoop [] head

/-- The loop of `unique` (lines 442-451): `value` is the value of the node
`current`, the list argument the chain `current->_next`.  The result is the
chain that starts at `current` when the loop ends. -/
def uniqueLoop {α : Type} (eq : α → α → Bool) (value : α) : List α → List α
  | [] => [value]
  | nextValue :: rest =>
    if eq value nextValue then uniqueLoop eq value rest
    else value :: uniqueLoop eq nextValue rest

/-- The member `unique` (lines 437-452): nothing on a null `_head`, otherwise the loop
from `current = _head`. -/
def unique {α : Type} (eq : α → α → Bool) (head : List α) : List α :=
  match head with
  | [] => []
  | value :: next => uniqueLoop eq value next

/-- The lambda `merge_lists` of `sort` (lines 461-482): while both chains are
non-null the node with `a->_value <= b->_value` is taken from `a`, otherwise
from `b`; the chain left over (`a ? a : b`) is appended. -/
def merge_lists {α : Type} (le : α → α → Bool) : List α → List α → List α
  | [], b => b
  | x :: a, [] => x :: a
  | x :: a, y :: b =>
    if le x y then x :: merge_lists le a (y :: b)
    else y :: merge_lists le (x :: a) b

/-- The loop of `merge` (lines 539-558) on the chains `a` (from `_head`) and
`b` (from `other._head`): while both are non-null the node with
`a->_value <= b->_value` is taken from `a`, otherwise from `b`; then
`tail->_next = a ? a : b`.  The value is the chain `dummy._next`. -/
def mergeLoop {α : Type} (le : α → α → Bool) : List α → List α → List α
  | [], b => b
  | x :: a, [] => x :: a
  | x :: a, y :: b =>
    if le x y then x :: mergeLoop le a (y :: b)
    else y :: mergeLoop le (x :: a) b

/-- The member `merge` on two distinct containers (lines 533-561): `_head`
becomes the merged chain and `other._head` becomes null.  The result is the
pair (`this`, `other`). -/
def merge {α : Type} (le : α → α → Bool) (head other : List α) : List α × List α :=
  (mergeLoop le head other, [])

/-- The member `merge` of a container with itself (line 536): returns at once. -/
def mergeSelf {α : Type} (head : List α) : List α :=
  head

/-- The run splitting of `sort` (lines 499-507 and 509-517): from the first
node of `remaining` the walk follows `steps` links, stopping early on null;
when it ends on a node the chain is cut after that node.  The result is the
run cut off and the chain behind it; when the walk ends on null nothing is
cut, the run is the whole chain and nothing is behind it. -/
def cutAfter {α : Type} : Nat → List α → List α × List α
  | _, [] => ([], [])
  | 0, value :: next => ([value], next)
  | steps + 1, value :: next =>
    ((value :: (cutAfter steps next).1), (cutAfter steps next).2)

/-- The chain behind a run cut off by `cutAfter` is no longer than the chain
the walk started from. -/
theorem cutAfter_snd_length_le {α : Type} (steps : Nat) (l : List α) :
    (cutAfter steps l).2.length ≤ l.length := by
  induction l generalizing steps with
  | nil => cases steps <;> simp [cutAfter]
  | cons value next ih =>
    cases steps with
    | zero => simp [cutAfter]
    | succ k =>
      have h := ih k
      simp only [cutAfter, List.length_cons]
      omega

/-- Two runs cut off a non-empty chain leave a strictly shorter chain: the
first run holds at least the first node. -/
theorem cutAfter_twice_length_lt {α : Type} (steps : Nat) (value : α) (rest : List α) :
    (cutAfter steps (cutAfter steps (value :: rest)).2).2.length
      < (value :: rest).length := by
  have h2 := cutAfter_snd_length_le steps (cutAfter steps (value :: rest)).2
  have h3 : (cutAfter steps (value :: rest)).2.length ≤ rest.length := by
    cases steps with
    | zero => simp [cutAfter]
    | succ k =>
      have := cutAfter_snd_length_le k rest
      simp only [cutAfter]
      exact this
  simp only [List.length_cons]
  omega

/-- The inner loop of one pass of `sort` (lines 493-524).  `result` is the
chain built so far behind `last_ptr`, `did_merge` the flag and `remaining`
the chain still to be split.  The `for` loops run while `i < list_size` from
`i = 1`, so they follow `list_size - 1` links (none when `list_size` is 0 or
1).  The value is the pair (`result`, `did_merge`) when the loop ends. -/
def passLoop {α : Type} (le : α → α → Bool) (list_size : Nat)
    (result : List α) (did_merge : Bool) (remaining : List α) : List α × Bool :=
  match remaining with
  | [] => (result, did_merge)
  | value :: rest =>
    let left := (cutAfter (list_size - 1) (value :: rest)).1
    let right := (cutAfter (list_size - 1) (cutAfter (list_size - 1) (value :: rest)).2).1
    let next := (cutAfter (list_size - 1) (cutAfter (list_size - 1) (value :: rest)).2).2
    passLoop le list_size (result ++ merge_lists le left right) true next
termination_by remaining.length
decreasing_by
  exact cutAfter_twice_length_lt _ _ _

/-- The width of `size_type`: `list_size *= 2` wraps modulo `2 ^ 64`. -/
def sizeModulus : Nat := 2 ^ 64

/-- The outer loop of `sort` (lines 485-530), run for at most `fuel` passes.
A pass starts from `result = nullptr`, `did_merge = false`, `remaining =
_head`.  When the pass leaves `did_merge` false the loop breaks and `_head`
is as it was; otherwise `_head = result` and `list_size` doubles.  `none`
means that the loop is still running after `fuel` passes. -/
def sortLoop {α : Type} (le : α → α → Bool) : Nat → Nat → List α → Option (List α)
  | 0, _, _ => none
  | fuel + 1, list_size, head =>
    if (passLoop le list_size [] false head).2 = false then some head
    else sortLoop le fuel (list_size * 2 % sizeModulus) (passLoop le list_size [] false head).1

/-- The member `sort` (lines 454-531): returns at once on a chain of fewer than two
nodes, otherwise runs the pass loop from `list_size = 1`. -/
def sort {α : Type} (le : α → α → Bool) (fuel : Nat) (head : List α) : Option (List α) :=
  match head with
  | [] => some []
  | [value] => some [value]
  | value :: next :: rest => sortLoop le fuel 1 (value :: next :: rest)

/-- The chain held in `_head` after `passes` passes of the outer loop of
`sort` started with run length `list_size` (the loop state, whether or not
the loop ever exits). -/
def afterPasses {α : Type} (le : α → α → Bool) : Nat → Nat → List α → List α
  | 0, _, head => head
  | passes + 1, list_size, head =>
    afterPasses le passes (list_size * 2 % sizeModulus) (passLoop le list_size [] false head).1

/-- The words of the specification of `unique`, read on the original chain:
after a node of value `prev`, an element is kept exactly when it differs from
its immediate predecessor in the original chain. -/
def keepChanges {α : Type} (eq : α → α → Bool) (prev : α) : List α → List α
  | [] => []
  | value :: rest =>
    if eq prev value then keepChanges eq value rest
    else value :: keepChanges eq value rest

/-- The words of the specification of `unique`: the elements that are first
in the chain or differ from their immediate predecessor in the original
chain, in the original order. -/
def firstOfRuns {α : Type} (eq : α → α → Bool) : List α → List α
  | [] => []
  | value :: rest => value :: keepChanges eq value rest

/-- The comparison `<=` of `Nat` as a boolean function. -/
def natLe (a b : Nat) : Bool := decide (a ≤ b)

/-- The comparison `==` of `Nat` as a boolean function. -/
def natEq (a b : Nat) : Bool := decide (a = b)

/-- The comparison `<=` of records that are ordered by their key, the first
component; the second component does not take part in the comparison. -/
def keyLe (a b : Nat × Nat) : Bool := decide (a.1 ≤ b.1)

/-- A chain is non-decreasing when every element is `<=` its successor. -/
def NonDecreasing {α : Type} (le : α → α → Bool) (l : List α) : Prop :=
  List.Chain' (fun a b => le a b = true) l

/-- The nodes of the chain of `this`, each marked as coming from `this`. -/
def fromSelf {α : Type} (l : List α) : List (α × Bool) :=
  l.map (fun v => (v, true))

/-- The nodes of the chain of `other`, each marked as coming from `other`. -/
def fromOther {α : Type} (l : List α) : List (α × Bool) :=
  l.map (fun v => (v, false))

/-- The comparison of marked nodes: `<=` on the values, blind to the mark. -/
def onValue {α : Type} (le : α → α → Bool) (p q : α × Bool) : Bool :=
  le p.1 q.1

/-- The outcome of a call of a member function: what the call returned or
threw, and the chain held in `_head` when the call ended, by return or by
throw. -/
structure Outcome (α β : Type) where
  result : Except Error β
  chain : List α

/-- An iterator of the container whose chain is `head`: `none` is the null
`_current` (the iterator `end()`), `some i` the pointer to the node at index
`i` of the chain.  An iterator whose node has been removed, or one that
points into another container, is not a value of this type: using it is
undefined. -/
abbrev Cursor {α : Type} (head : List α) : Type := Option (Fin head.length)

/-- The member `front` (lines 296-310, both overloads): throws on a null
`_head`, otherwise returns `_head->_value`; nothing is written. -/
def front {α : Type} (head : List α) : Outcome α α :=
  match head with
  | [] => ⟨Except.error (Error.runtime_error "ForwardList is empty"), []⟩
  | value :: next => ⟨Except.ok value, value :: next⟩

/-- The member `pop_front` (lines 286-294) with the chain it leaves: the
throw on a null `_head` comes before any write, otherwise
`_head = _head->_next`. -/
def pop_front_outcome {α : Type} (head : List α) : Outcome α Unit :=
  match head with
  | [] => ⟨Except.error (Error.runtime_error "ForwardList is empty"), []⟩
  | _ :: next => ⟨Except.ok (), next⟩

/-- The walk and the unlinking of `erase_after(size_type)` (lines 340-356) on
the chain that starts at `current`, with `steps` iterations of the `for` loop
still to run.  An iteration throws on a null `current` and otherwise moves to
`current->_next`; after the loop the node behind `current` is unlinked when
`current` and `current->_next` are non-null, otherwise the call throws.  The
value is the chain that starts at `current` after the unlinking, or the
exception; the walk writes nothing. -/
def eraseAfterWalk {α : Type} : Nat → List α → Except Error (List α)
  | 0, value :: _ :: after => Except.ok (value :: after)
  | 0, [_] => Except.error (Error.out_of_range "Nothing to erase after this position")
  | 0, [] => Except.error (Error.out_of_range "Nothing to erase after this position")
  | _ + 1, [] => Except.error (Error.out_of_range "Position out of range")
  | steps + 1, value :: next =>
    match eraseAfterWalk steps next with
    | Except.ok chain => Except.ok (value :: chain)
    | Except.error e => Except.error e

/-- The member `erase_after(size_type position)` (lines 337-357), the walk
started at `current = _head`.  On a throw nothing has been written. -/
def erase_after_position {α : Type} (head : List α) (position : Nat) : Outcome α Unit :=
  match eraseAfterWalk position head with
  | Except.ok chain => ⟨Except.ok (), chain⟩
  | Except.error e => ⟨Except.error e, head⟩

/-- The member `erase_after(iterator pos)` (lines 359-367): throws when
`pos._current` or `pos._current->_next` is null, before any write; otherwise
the node behind the node of `pos` is unlinked: the chain keeps the nodes up
to that of `pos` and goes on with `temp->_next`. -/
def erase_after_iterator {α : Type} (head : List α) (pos : Cursor head) : Outcome α Unit :=
  match pos with
  | none => ⟨Except.error (Error.out_of_range "Nothing to erase after this iterator"), head⟩
  | some i =>
    match head.drop (i.val + 1) with
    | [] => ⟨Except.error (Error.out_of_range "Nothing to erase after this iterator"), head⟩
    | _ :: after => ⟨Except.ok (), head.take (i.val + 1) ++ after⟩

/-- The member `insert_after` (lines 369-377): throws on a null
`pos._current`, before any write; otherwise a new node with `value` is linked
between the node of `pos` and `pos._current->_next`.  The value returned is
the index, in the new chain, of the node that the returned iterator points
to. -/
def insert_after {α : Type} (head : List α) (pos : Cursor head) (value : α) : Outcome α Nat :=
  match pos with
  | none => ⟨Except.error (Error.out_of_range "Invalid iterator"), head⟩
  | some i =>
    ⟨Except.ok (i.val + 1), head.take (i.val + 1) ++ value :: head.drop (i.val + 1)⟩

/-- The loop of `find` (lines 383-388, and 396-401 for the const overload):
`index` is the index in the chain of the node `current`.  The value is the
index of the node the returned iterator points to, `none` for `end()`. -/
def findLoop {α : Type} (eq : α → α → Bool) (value : α) : Nat → List α → Option Nat
  | _, [] => none
  | index, nodeValue :: next =>
    if eq nodeValue value then some index else findLoop eq value (index + 1) next

/-- The member `find` (lines 379-403): the loop from `current = _head`. -/
def find {α : Type} (eq : α → α → Bool) (value : α) (head : List α) : Option Nat :=
  findLoop eq value 0 head

/-- The member `contains` (lines 405-409): `find(value) != end()`, the
comparison of the two `_current` pointers. -/
def contains {α : Type} (eq : α → α → Bool) (value : α) (head : List α) : Bool :=
  find eq value head != none

/-- The loop of `to_vector` (lines 416-420): `result` is the vector so far,
`push_back` appends the value of the node `current`. -/
def to_vectorLoop {α : Type} : List α → List α → List α
  | result, [] => result
  | result, value :: next => to_vectorLoop (result ++ [value]) next

/-- The member `to_vector` (lines 411-422): the loop from an empty vector and
`current = _head`. -/
def to_vector {α : Type} (head : List α) : List α :=
  to_vectorLoop [] head

/-- The loop of the constructor from `std::initializer_list` (lines
224-225): `pending` holds the values still to be visited by the reverse
iterator, in the order it visits them; each is given to `push_front`. -/
def initLoop {α : Type} : List α → List α → List α
  | [], head => head
  | value :: pending, head => initLoop pending (push_front value head)

/-- The constructor from `std::initializer_list` (lines 221-226): `_head`
starts null and the reverse iterator runs from `rbegin(init)` to
`rend(init)`, that is over `init` from its last value to its first. -/
def fromInitializerList {α : Type} (init : List α) : List α :=
  initLoop init.reverse []

/-- The friend `operator==` (lines 170-182): the element type is compared
with its `operator!=`, here `ne`; the walk stops at the first pair of nodes
with `a->_value != b->_value` or when one chain ends, and then both must have
ended. -/
def operator_eq {α : Type} (ne : α → α → Bool) : List α → List α → Bool
  | [], [] => true
  | [], _ :: _ => false
  | _ :: _, [] => false
  | x :: a, y :: b => if ne x y then false else operator_eq ne a b

/-- The friend `operator!=` (lines 184-187): `!(lhs == rhs)`. -/
def operator_ne {α : Type} (ne : α → α → Bool) (lhs rhs : List α) : Bool :=
  !operator_eq ne lhs rhs

/-- The comparison `!=` of `Nat` as a boolean function. -/
def natNe (a b : Nat) : Bool := decide (a ≠ b)

/-- The pass of `sort` with run length `list_size` on the chain `head`: the
chain `result` that the pass leaves for `_head` (lines 487-524 and 528). -/
def sortPass {α : Type} (le : α → α → Bool) (list_size : Nat) (head : List α) : List α :=
  (passLoop le list_size [] false head).1

/-- Each block of `w` consecutive elements of the chain, counted from the
first node (the last block possibly shorter), is non-decreasing. -/
def BlocksSorted {α : Type} (le : α → α → Bool) (w : Nat) (l : List α) : Prop :=
  ∀ i, i < l.length → NonDecreasing le ((l.drop (i * w)).take w)

/-! ## reverse -/

theorem reverseLoop_eq {α : Type} (prev current : List α) :
    reverseLoop prev current = current.reverse ++ prev := by
  induction current generalizing prev with
  | nil => simp [reverseLoop]
  | cons value next ih => simp [reverseLoop, ih]

theorem reverse_eq {α : Type} (head : List α) : reverse head = head.reverse := by
  simp [reverse, reverseLoop_eq]

/-- C8: `reverse` leaves the chain `xn, ..., x1`: the length is unchanged, the
element at index `i` is the element that stood at index `n - 1 - i`, the
result is the reversed list; `[1,2,3]` becomes `[3,2,1]` and the empty chain
stays empty. -/
theorem reverse_opposite_order {α : Type} (head : List α) :
    (reverse head).length = head.length
    ∧ (∀ i, i < head.length → (reverse head)[i]? = head[head.length - 1 - i]?)
    ∧ reverse head = head.reverse
    ∧ List.Perm (reverse head) head
    ∧ reverse [1, 2, 3] = [3, 2, 1]
    ∧ reverse ([] : List α) = [] := by
  refine ⟨?_, ?_, reverse_eq head, ?_, ?_, ?_⟩
  · simp [reverse_eq]
  · intro i hi
    rw [reverse_eq]
    exact List.getElem?_reverse hi
  · rw [reverse_eq]
    exact List.reverse_perm head
  · simp [reverse, reverseLoop]
  · simp [reverse, reverseLoop]

/-- C9: `reverse` twice restores the original chain. -/
theorem reverse_involutive {α : Type} (head : List α) :
    reverse (reverse head) = head := by
  simp [reverse_eq]

/-! ## push_front and pop_front -/

/-- C10: `push_front(v)` then `pop_front()` does not throw and leaves the
chain as it was; `push_front` puts `v` in front of the unchanged chain, and
pushing 3, 1, 2 onto the empty chain gives `[2,1,3]`. -/
theorem push_front_pop_front {α : Type} (v : α) (head : List α) :
    pop_front (push_front v head) = Except.ok head
    ∧ push_front v head = v :: head
    ∧ push_front 2 (push_front 1 (push_front 3 [])) = [2, 1, 3] := by
  refine ⟨rfl, rfl, rfl⟩

/-! ## unique -/

theorem uniqueLoop_ne_nil {α : Type} (eq : α → α → Bool) (value : α) (l : List α) :
    ∃ t, uniqueLoop eq value l = value :: t := by
  induction l generalizing value with
  | nil => exact ⟨[], rfl⟩
  | cons y rest ih =>
    by_cases h : eq value y = true
    · simpa [uniqueLoop, h] using ih value
    · exact ⟨uniqueLoop eq y rest, by simp [uniqueLoop, h]⟩

theorem uniqueLoop_chain {α : Type} (eq : α → α → Bool) (value : α) (l : List α) :
    List.Chain' (fun a b => eq a b = false) (uniqueLoop eq value l) := by
  induction l generalizing value with
  | nil => simp [uniqueLoop]
  | cons y rest ih =>
    by_cases h : eq value y = true
    · simpa [uniqueLoop, h] using ih value
    · obtain ⟨t, ht⟩ := uniqueLoop_ne_nil eq y rest
      have hy := ih y
      simp only [uniqueLoop, h]
      rw [ht] at hy ⊢
      simp only [Bool.false_eq_true, if_false]
      exact List.Chain'.cons (by simpa using h) hy

theorem uniqueLoop_of_chain {α : Type} (eq : α → α → Bool) (value : α) (l : List α)
    (h : List.Chain (fun a b => eq a b = false) value l) :
    uniqueLoop eq value l = value :: l := by
  induction l generalizing value with
  | nil => rfl
  | cons y rest ih =>
    rw [List.chain_cons] at h
    simp [uniqueLoop, h.1, ih y h.2]

theorem unique_of_chain {α : Type} (eq : α → α → Bool) (l : List α)
    (h : List.Chain' (fun a b => eq a b = false) l) : unique eq l = l := by
  cases l with
  | nil => rfl
  | cons value next => exact uniqueLoop_of_chain eq value next h

theorem unique_chain {α : Type} (eq : α → α → Bool) (l : List α) :
    List.Chain' (fun a b => eq a b = false) (unique eq l) := by
  cases l with
  | nil => simp [unique]
  | cons value next => exact uniqueLoop_chain eq value next

theorem uniqueLoop_sublist {α : Type} (eq : α → α → Bool) (value : α) (l : List α) :
    List.Sublist (uniqueLoop eq value l) (value :: l) := by
  induction l generalizing value with
  | nil => exact List.Sublist.refl _
  | cons y rest ih =>
    by_cases h : eq value y = true
    · simp only [uniqueLoop, h, if_true]
      exact (ih value).trans
        (List.Sublist.cons₂ value (List.sublist_cons_self y rest))
    · simp only [uniqueLoop, h]
      exact List.Sublist.cons₂ value (ih y)

theorem keepChanges_congr {α : Type} (eq : α → α → Bool)
    (hsymm : ∀ a b, eq a b = true → eq b a = true)
    (htrans : ∀ a b c, eq a b = true → eq b c = true → eq a c = true)
    (x y : α) (hxy : eq x y = true) (l : List α) :
    keepChanges eq x l = keepChanges eq y l := by
  cases l with
  | nil => rfl
  | cons z rest =>
    have hz : eq x z = eq y z := by
      cases hx : eq x z <;> cases hy : eq y z <;> simp
      · have := htrans x y z hxy hy
        simp [hx] at this
      · have := htrans y x z (hsymm x y hxy) hx
        simp [hy] at this
    simp [keepChanges, hz]

theorem uniqueLoop_eq_keepChanges {α : Type} (eq : α → α → Bool)
    (hsymm : ∀ a b, eq a b = true → eq b a = true)
    (htrans : ∀ a b c, eq a b = true → eq b c = true → eq a c = true)
    (value : α) (l : List α) :
    uniqueLoop eq value l = value :: keepChanges eq value l := by
  induction l generalizing value with
  | nil => rfl
  | cons y rest ih =>
    by_cases h : eq value y = true
    · simp [uniqueLoop, keepChanges, h, ih value,
        keepChanges_congr eq hsymm htrans value y h rest]
    · simp [uniqueLoop, keepChanges, h, ih y]

/-- C6: for an equality that is symmetric and transitive, `unique` leaves
exactly the elements that are first in the chain or differ from their
immediate predecessor in the original chain, in the original order; no two
adjacent elements of the result are equal; `[1,1,2,2,2,3]` becomes
`[1,2,3]`. -/
theorem unique_keeps_first_of_each_run {α : Type} (eq : α → α → Bool)
    (hsymm : ∀ a b, eq a b = true → eq b a = true)
    (htrans : ∀ a b c, eq a b = true → eq b c = true → eq a c = true)
    (head : List α) :
    unique eq head = firstOfRuns eq head
    ∧ List.Chain' (fun a b => eq a b = false) (unique eq head)
    ∧ List.Sublist (unique eq head) head
    ∧ unique natEq [1, 1, 2, 2, 2, 3] = [1, 2, 3] := by
  have h1 : unique eq head = firstOfRuns eq head := by
    cases head with
    | nil => rfl
    | cons value next => exact uniqueLoop_eq_keepChanges eq hsymm htrans value next
  refine ⟨h1, unique_chain eq head, ?_, by decide⟩
  cases head with
  | nil => exact List.Sublist.refl _
  | cons value next => exact uniqueLoop_sublist eq value next

/-- C6 at a concrete chain: the equality of `Nat` on `[1,1,2,2,2,3]`. -/
theorem unique_keeps_first_of_each_run_witness :
    unique natEq [1, 1, 2, 2, 2, 3] = firstOfRuns natEq [1, 1, 2, 2, 2, 3]
    ∧ List.Chain' (fun a b => natEq a b = false) (unique natEq [1, 1, 2, 2, 2, 3])
    ∧ List.Sublist (unique natEq [1, 1, 2, 2, 2, 3]) [1, 1, 2, 2, 2, 3]
    ∧ unique natEq [1, 1, 2, 2, 2, 3] = [1, 2, 3] :=
  unique_keeps_first_of_each_run natEq
    (by intro a b h; simp [natEq] at h ⊢; omega)
    (by intro a b c h1 h2; simp [natEq] at h1 h2 ⊢; omega)
    [1, 1, 2, 2, 2, 3]

/-- C7: `unique` is idempotent, for any `operator==`. -/
theorem unique_idempotent {α : Type} (eq : α → α → Bool) (head : List α) :
    unique eq (unique eq head) = unique eq head :=
  unique_of_chain eq (unique eq head) (unique_chain eq head)

/-! ## merge_lists and merge -/

theorem merge_lists_cons_le {α : Type} (le : α → α → Bool) (x y : α) (a b : List α)
    (h : le x y = true) :
    merge_lists le (x :: a) (y :: b) = x :: merge_lists le a (y :: b) := by
  simp [merge_lists, h]

theorem merge_lists_cons_gt {α : Type} (le : α → α → Bool) (x y : α) (a b : List α)
    (h : ¬ le x y = true) :
    merge_lists le (x :: a) (y :: b) = y :: merge_lists le (x :: a) b := by
  simp [merge_lists, h]

theorem mergeLoop_eq_merge_lists {α : Type} (le : α → α → Bool) (a b : List α) :
    mergeLoop le a b = merge_lists le a b := by
  induction a generalizing b with
  | nil => simp [mergeLoop, merge_lists]
  | cons x a iha =>
    induction b with
    | nil => simp [mergeLoop, merge_lists]
    | cons y b ihb => simp only [mergeLoop, merge_lists, iha, ihb]

theorem merge_fst {α : Type} (le : α → α → Bool) (a b : List α) :
    (merge le a b).1 = merge_lists le a b :=
  mergeLoop_eq_merge_lists le a b

theorem merge_lists_nil_right {α : Type} (le : α → α → Bool) (a : List α) :
    merge_lists le a [] = a := by
  cases a <;> simp [merge_lists]

theorem merge_lists_perm {α : Type} (le : α → α → Bool) (a b : List α) :
    List.Perm (merge_lists le a b) (a ++ b) := by
  induction a generalizing b with
  | nil => simp [merge_lists]
  | cons x a iha =>
    induction b with
    | nil => simp [merge_lists]
    | cons y b ihb =>
      by_cases h : le x y = true
      · simp only [merge_lists, h, if_true, List.cons_append]
        exact List.Perm.cons x (iha (y :: b))
      · simp only [merge_lists, h]
        refine (List.Perm.cons y ihb).trans ?_
        exact (@List.perm_middle α y (x :: a) b).symm

theorem merge_lists_mem {α : Type} (le : α → α → Bool) (a b : List α) (v : α) :
    v ∈ merge_lists le a b ↔ v ∈ a ∨ v ∈ b := by
  rw [(merge_lists_perm le a b).mem_iff, List.mem_append]

theorem merge_lists_chain {α : Type} (le : α → α → Bool)
    (htotal : ∀ a b, le a b = true ∨ le b a = true) (z : α) (a b : List α)
    (ha : List.Chain (fun u v => le u v = true) z a)
    (hb : List.Chain (fun u v => le u v = true) z b) :
    List.Chain (fun u v => le u v = true) z (merge_lists le a b) := by
  induction a generalizing z b with
  | nil => simpa [merge_lists] using hb
  | cons x a iha =>
    induction b generalizing z with
    | nil => simpa [merge_lists] using ha
    | cons y b ihb =>
      rw [List.chain_cons] at ha hb
      by_cases h : le x y = true
      · simp only [merge_lists, h, if_true]
        exact List.Chain.cons ha.1 (iha x (y :: b) ha.2 (List.Chain.cons h hb.2))
      · simp only [merge_lists, h]
        have hyx : le y x = true := (htotal x y).resolve_left h
        exact List.Chain.cons hb.1 (ihb y (List.Chain.cons hyx ha.2) hb.2)

theorem merge_lists_nonDecreasing {α : Type} (le : α → α → Bool)
    (htotal : ∀ a b, le a b = true ∨ le b a = true) (a b : List α)
    (ha : NonDecreasing le a) (hb : NonDecreasing le b) :
    NonDecreasing le (merge_lists le a b) := by
  unfold NonDecreasing at *
  cases a with
  | nil => simpa [merge_lists] using hb
  | cons x a =>
    cases b with
    | nil => simpa [merge_lists] using ha
    | cons y b =>
      by_cases h : le x y = true
      · simp only [merge_lists, h, if_true]
        exact merge_lists_chain le htotal x a (y :: b) ha (List.Chain.cons h hb)
      · simp only [merge_lists, h]
        have hyx : le y x = true := (htotal x y).resolve_left h
        exact merge_lists_chain le htotal y (x :: a) b (List.Chain.cons hyx ha) hb

/-- C4: for a total `<=`, merging two distinct containers whose chains are
non-decreasing leaves `this` non-decreasing, holding the multiset sum of the
two original chains, and leaves `other` empty. -/
theorem merge_sorted {α : Type} (le : α → α → Bool)
    (htotal : ∀ a b, le a b = true ∨ le b a = true) (A B : List α)
    (hA : NonDecreasing le A) (hB : NonDecreasing le B) :
    NonDecreasing le (merge le A B).1
    ∧ ((merge le A B).1 : Multiset α) = (A : Multiset α) + (B : Multiset α)
    ∧ (merge le A B).2 = [] := by
  rw [merge_fst]
  refine ⟨merge_lists_nonDecreasing le htotal A B hA hB, ?_, rfl⟩
  rw [Multiset.coe_add, Multiset.coe_eq_coe]
  exact merge_lists_perm le A B

/-- C4 at concrete chains: `[1,3,5]` merged with `[2,3,4]`. -/
theorem merge_sorted_witness :
    NonDecreasing natLe (merge natLe [1, 3, 5] [2, 3, 4]).1
    ∧ ((merge natLe [1, 3, 5] [2, 3, 4]).1 : Multiset Nat)
        = (([1, 3, 5] : List Nat) : Multiset Nat) + (([2, 3, 4] : List Nat) : Multiset Nat)
    ∧ (merge natLe [1, 3, 5] [2, 3, 4]).2 = [] :=
  merge_sorted natLe (by intro a b; simp [natLe]; omega) [1, 3, 5] [2, 3, 4]
    (by simp [NonDecreasing, natLe]) (by simp [NonDecreasing, natLe])

theorem chain_le_of_mem {α : Type} (le : α → α → Bool)
    (htrans : ∀ a b c, le a b = true → le b c = true → le a c = true)
    (x : α) (a : List α) (h : List.Chain (fun u v => le u v = true) x a) :
    ∀ v ∈ a, le x v = true := by
  induction a generalizing x with
  | nil => intro v hv; simp at hv
  | cons y a ih =>
    rw [List.chain_cons] at h
    intro v hv
    rcases List.mem_cons.1 hv with rfl | hv
    · exact h.1
    · exact htrans x y v h.1 (ih y h.2 v hv)

theorem merge_lists_filter_self {α : Type} (le : α → α → Bool) (p : α → Bool)
    (a b : List α) (ha : ∀ x ∈ a, p x = true) (hb : ∀ y ∈ b, p y = false) :
    (merge_lists le a b).filter p = a := by
  induction a generalizing b with
  | nil =>
    simp only [merge_lists]
    exact List.filter_eq_nil_iff.2 (fun y hy => by simp [hb y hy])
  | cons x a iha =>
    induction b with
    | nil =>
      simp only [merge_lists]
      exact List.filter_eq_self.2 ha
    | cons y b ihb =>
      have hx : p x = true := ha x (List.mem_cons_self x a)
      have hy : p y = false := hb y (List.mem_cons_self y b)
      by_cases h : le x y = true
      · rw [merge_lists_cons_le le x y a b h]
        simp only [List.filter_cons, hx, if_true, Bool.not_true, Bool.false_eq_true, if_false]
        rw [iha (y :: b) (fun v hv => ha v (List.mem_cons_of_mem x hv)) hb]
      · rw [merge_lists_cons_gt le x y a b h]
        simp only [List.filter_cons, hy, Bool.false_eq_true, if_false, Bool.not_false, if_true]
        exact ihb (fun v hv => hb v (List.mem_cons_of_mem y hv))

theorem merge_lists_filter_other {α : Type} (le : α → α → Bool) (p : α → Bool)
    (a b : List α) (ha : ∀ x ∈ a, p x = true) (hb : ∀ y ∈ b, p y = false) :
    (merge_lists le a b).filter (fun v => !p v) = b := by
  induction a generalizing b with
  | nil =>
    simp only [merge_lists]
    exact List.filter_eq_self.2 (fun y hy => by simp [hb y hy])
  | cons x a iha =>
    induction b with
    | nil =>
      simp only [merge_lists]
      exact List.filter_eq_nil_iff.2 (fun v hv => by simp [ha v hv])
    | cons y b ihb =>
      have hx : p x = true := ha x (List.mem_cons_self x a)
      have hy : p y = false := hb y (List.mem_cons_self y b)
      by_cases h : le x y = true
      · rw [merge_lists_cons_le le x y a b h]
        simp only [List.filter_cons, hx, if_true, Bool.not_true, Bool.false_eq_true, if_false]
        exact iha (y :: b) (fun v hv => ha v (List.mem_cons_of_mem x hv)) hb
      · rw [merge_lists_cons_gt le x y a b h]
        simp only [List.filter_cons, hy, Bool.false_eq_true, if_false, Bool.not_false, if_true]
        rw [ihb (fun v hv => hb v (List.mem_cons_of_mem y hv))]

theorem merge_lists_ties {α : Type} (le : α → α → Bool)
    (htrans : ∀ a b c, le a b = true → le b c = true → le a c = true)
    (p : α → Bool) (a b : List α) (hsorted : NonDecreasing le a)
    (ha : ∀ x ∈ a, p x = true) (hb : ∀ y ∈ b, p y = false) :
    List.Pairwise (fun u v => p u = false → p v = true → le v u = false)
      (merge_lists le a b) := by
  induction a generalizing b with
  | nil =>
    simp only [merge_lists]
    refine List.Pairwise.imp_of_mem ?_ (List.pairwise_of_forall (R := fun _ _ => True) (fun _ _ => trivial))
    intro u v _ hv _ _ hpv
    rw [hb v hv] at hpv
    exact absurd hpv (by simp)
  | cons x a iha =>
    induction b with
    | nil =>
      simp only [merge_lists]
      refine List.Pairwise.imp_of_mem ?_ (List.pairwise_of_forall (R := fun _ _ => True) (fun _ _ => trivial))
      intro u v hu _ _ hpu
      rw [ha u hu] at hpu
      exact absurd hpu (by simp)
    | cons y b ihb =>
      have hx : p x = true := ha x (List.mem_cons_self x a)
      have hy : p y = false := hb y (List.mem_cons_self y b)
      have htail : NonDecreasing le a := List.Chain'.tail hsorted
      by_cases h : le x y = true
      · simp only [merge_lists, h, if_true]
        refine List.Pairwise.cons ?_
          (iha (y :: b) htail (fun v hv => ha v (List.mem_cons_of_mem x hv)) hb)
        intro v _ hpx
        rw [hx] at hpx
        exact absurd hpx (by simp)
      · simp only [merge_lists, h]
        refine List.Pairwise.cons ?_ (ihb (fun v hv => hb v (List.mem_cons_of_mem y hv)))
        intro v hv _ hpv
        have hva : v ∈ x :: a := by
          rcases (merge_lists_mem le (x :: a) b v).1 hv with hva | hvb
          · exact hva
          · rw [hb v (List.mem_cons_of_mem y hvb)] at hpv
            exact absurd hpv (by simp)
        cases hvy : le v y with
        | false => rfl
        | true =>
          exfalso
          rcases List.mem_cons.1 hva with rfl | hva
          · exact h hvy
          · exact h (htrans x v y (chain_le_of_mem le htrans x a hsorted v hva) hvy)

theorem merge_lists_map_fst {α : Type} (le : α → α → Bool) (A B : List α) :
    (merge_lists (onValue le) (fromSelf A) (fromOther B)).map Prod.fst
      = merge_lists le A B := by
  induction A generalizing B with
  | nil => simp [merge_lists, fromSelf, fromOther, Function.comp_def]
  | cons x A ihA =>
    induction B with
    | nil => simp [merge_lists, fromSelf, fromOther, Function.comp_def]
    | cons y B ihB =>
      have h1 := ihA (y :: B)
      simp only [fromSelf, fromOther, List.map_cons] at h1 ihB ⊢
      by_cases h : le x y = true
      · rw [merge_lists_cons_le le x y A B h,
          merge_lists_cons_le (onValue le) (x, true) (y, false) _ _ h, List.map_cons, h1]
      · rw [merge_lists_cons_gt le x y A B h,
          merge_lists_cons_gt (onValue le) (x, true) (y, false) _ _ h, List.map_cons, ihB]

/-- C5: `merge` is stable and ties favour `this`.  The nodes of `A` (the chain of
`this`, non-decreasing under a transitive `<=`) and of `B` are marked by their
origin, the comparison seeing the values only.  In the merged chain the nodes from
`A` are the chain `A` in its order, the nodes from `B` are the chain `B` in its
order, and no node from `B` stands before a node from `A` that compares
equal to it; the values are those of the merge of the unmarked chains. -/
theorem merge_stable {α : Type} (le : α → α → Bool)
    (htrans : ∀ a b c, le a b = true → le b c = true → le a c = true)
    (A B : List α) (hA : NonDecreasing le A) :
    ((merge (onValue le) (fromSelf A) (fromOther B)).1).map Prod.fst = (merge le A B).1
    ∧ ((merge (onValue le) (fromSelf A) (fromOther B)).1).filter (fun n => n.2)
        = fromSelf A
    ∧ ((merge (onValue le) (fromSelf A) (fromOther B)).1).filter (fun n => !n.2)
        = fromOther B
    ∧ List.Pairwise
        (fun u v => u.2 = false → v.2 = true →
          ¬ (le u.1 v.1 = true ∧ le v.1 u.1 = true))
        (merge (onValue le) (fromSelf A) (fromOther B)).1 := by
  have hs : ∀ n ∈ fromSelf A, (fun n : α × Bool => n.2) n = true := by
    intro n hn
    simp only [fromSelf, List.mem_map] at hn
    obtain ⟨v, _, rfl⟩ := hn
    rfl
  have ho : ∀ n ∈ fromOther B, (fun n : α × Bool => n.2) n = false := by
    intro n hn
    simp only [fromOther, List.mem_map] at hn
    obtain ⟨v, _, rfl⟩ := hn
    rfl
  have hsorted : NonDecreasing (onValue le) (fromSelf A) := by
    unfold NonDecreasing fromSelf at *
    rw [List.chain'_map]
    exact hA
  rw [merge_fst, merge_fst]
  refine ⟨merge_lists_map_fst le A B, ?_, ?_, ?_⟩
  · exact merge_lists_filter_self (onValue le) (fun n => n.2) _ _ hs ho
  · exact merge_lists_filter_other (onValue le) (fun n => n.2) _ _ hs ho
  · have h := merge_lists_ties (onValue le)
      (fun a b c h1 h2 => htrans a.1 b.1 c.1 h1 h2) (fun n => n.2) _ _ hsorted hs ho
    refine h.imp ?_
    intro u v huv hu hv hboth
    have := huv hu hv
    simp only [onValue] at this
    rw [hboth.2] at this
    exact absurd this (by simp)

/-- C5 at concrete chains: `[1,2,2]` merged with `[2,2,3]`. -/
theorem merge_stable_witness :
    ((merge (onValue natLe) (fromSelf [1, 2, 2]) (fromOther [2, 2, 3])).1).map Prod.fst
        = (merge natLe [1, 2, 2] [2, 2, 3]).1
    ∧ ((merge (onValue natLe) (fromSelf [1, 2, 2]) (fromOther [2, 2, 3])).1).filter
        (fun n => n.2) = fromSelf [1, 2, 2]
    ∧ ((merge (onValue natLe) (fromSelf [1, 2, 2]) (fromOther [2, 2, 3])).1).filter
        (fun n => !n.2) = fromOther [2, 2, 3]
    ∧ List.Pairwise
        (fun u v => u.2 = false → v.2 = true →
          ¬ (natLe u.1 v.1 = true ∧ natLe v.1 u.1 = true))
        (merge (onValue natLe) (fromSelf [1, 2, 2]) (fromOther [2, 2, 3])).1 :=
  merge_stable natLe (by intro a b c; simp [natLe]; omega) [1, 2, 2] [2, 2, 3]
    (by simp [NonDecreasing, natLe])

/-! ## sort -/

theorem cutAfter_eq {α : Type} (steps : Nat) (l : List α) :
    cutAfter steps l = (l.take (steps + 1), l.drop (steps + 1)) := by
  induction l generalizing steps with
  | nil => cases steps <;> simp [cutAfter]
  | cons value next ih =>
    cases steps with
    | zero => simp [cutAfter]
    | succ k => simp [cutAfter, ih k]

theorem passLoop_nil {α : Type} (le : α → α → Bool) (list_size : Nat)
    (result : List α) (did_merge : Bool) :
    passLoop le list_size result did_merge [] = (result, did_merge) := by
  rw [passLoop]

theorem passLoop_cons {α : Type} (le : α → α → Bool) (list_size : Nat)
    (result : List α) (did_merge : Bool) (value : α) (rest : List α) :
    passLoop le list_size result did_merge (value :: rest)
      = passLoop le list_size
          (result ++ merge_lists le
            ((value :: rest).take (list_size - 1 + 1))
            (((value :: rest).drop (list_size - 1 + 1)).take (list_size - 1 + 1)))
          true
          (((value :: rest).drop (list_size - 1 + 1)).drop (list_size - 1 + 1)) := by
  rw [passLoop]
  simp only [cutAfter_eq]

theorem passLoop_flag {α : Type} (le : α → α → Bool) (list_size : Nat) (n : Nat) :
    ∀ (result remaining : List α), remaining.length ≤ n →
      (passLoop le list_size result true remaining).2 = true := by
  induction n with
  | zero =>
    intro result remaining h
    cases remaining with
    | nil => rw [passLoop_nil]
    | cons v r => simp at h
  | succ n ih =>
    intro result remaining h
    cases remaining with
    | nil => rw [passLoop_nil]
    | cons v r =>
      rw [passLoop_cons]
      apply ih
      simp only [List.length_drop, List.length_cons] at h ⊢
      omega

theorem passLoop_perm {α : Type} (le : α → α → Bool) (list_size : Nat) (n : Nat) :
    ∀ (result remaining : List α) (did_merge : Bool), remaining.length ≤ n →
      List.Perm (passLoop le list_size result did_merge remaining).1
        (result ++ remaining) := by
  induction n with
  | zero =>
    intro result remaining d h
    cases remaining with
    | nil => rw [passLoop_nil]; simp
    | cons v r => simp at h
  | succ n ih =>
    intro result remaining d h
    cases remaining with
    | nil => rw [passLoop_nil]; simp
    | cons v r =>
      rw [passLoop_cons]
      refine (ih _ _ true ?_).trans ?_
      · simp only [List.length_drop, List.length_cons] at h ⊢
        omega
      · rw [List.append_assoc]
        refine List.Perm.append_left result ?_
        refine (List.Perm.append_right _ (merge_lists_perm le _ _)).trans ?_
        rw [List.append_assoc, List.take_append_drop, List.take_append_drop]

theorem passLoop_flag_of_ne_nil {α : Type} (le : α → α → Bool) (list_size : Nat)
    (result : List α) (did_merge : Bool) (remaining : List α) (h : remaining ≠ []) :
    (passLoop le list_size result did_merge remaining).2 = true := by
  cases remaining with
  | nil => exact absurd rfl h
  | cons v r =>
    rw [passLoop_cons]
    exact passLoop_flag le list_size _ _ _ (Nat.le_refl _)

theorem passLoop_ne_nil {α : Type} (le : α → α → Bool) (list_size : Nat)
    (did_merge : Bool) (head : List α) (h : head ≠ []) :
    (passLoop le list_size [] did_merge head).1 ≠ [] := by
  intro hnil
  have hp := passLoop_perm le list_size head.length [] head did_merge (Nat.le_refl _)
  rw [hnil] at hp
  exact h (by simpa using hp.symm.eq_nil)

theorem sortLoop_none {α : Type} (le : α → α → Bool) (fuel : Nat) :
    ∀ (list_size : Nat) (head : List α), head ≠ [] →
      sortLoop le fuel list_size head = none := by
  induction fuel with
  | zero => intro list_size head _; rfl
  | succ fuel ih =>
    intro list_size head h
    rw [sortLoop, passLoop_flag_of_ne_nil le list_size [] false head h]
    simp only [Bool.true_eq_false, if_false]
    exact ih _ _ (passLoop_ne_nil le list_size false head h)

/-- C2 on the code: on a chain of two or more nodes every pass sets
`did_merge`, whatever the run length, also when the chain is no longer than
the run length and nothing is left to merge; so the pass loop of `sort` is
still running after any number of passes. -/
theorem sort_pass_loop_never_exits {α : Type} (le : α → α → Bool)
    (x y : α) (rest : List α) :
    (∀ list_size, (passLoop le list_size [] false (x :: y :: rest)).2 = true)
    ∧ (∀ fuel, sort le fuel (x :: y :: rest) = none) := by
  refine ⟨fun list_size => passLoop_flag_of_ne_nil le list_size [] false _ (by simp), ?_⟩
  intro fuel
  exact sortLoop_none le fuel 1 (x :: y :: rest) (by simp)

/-- C1 on the code, at the chain `[2,1,3]`: two passes leave `[1,2,3]` in
`_head`, and `sort` has not returned after any number of passes. -/
theorem sort_2_1_3_does_not_return :
    afterPasses natLe 2 1 [2, 1, 3] = [1, 2, 3]
    ∧ (passLoop natLe 4 [] false [1, 2, 3]) = ([1, 2, 3], true)
    ∧ (∀ fuel, sort natLe fuel [2, 1, 3] = none) := by
  refine ⟨?_, ?_, ?_⟩
  · simp [afterPasses, passLoop_cons, passLoop_nil, merge_lists, natLe, sizeModulus]
  · simp [passLoop_cons, passLoop_nil, merge_lists, natLe]
  · intro fuel
    exact sortLoop_none natLe fuel 1 [2, 1, 3] (by simp)

/-- C3 on the code, at a chain of records ordered by key with two records of
key 1: one pass leaves them in their input order behind the record of key 0,
and `sort` has not returned after any number of passes. -/
theorem sort_equal_keys_does_not_return :
    afterPasses keyLe 1 1 [(1, 0), (0, 5), (1, 1)] = [(0, 5), (1, 0), (1, 1)]
    ∧ (∀ fuel, sort keyLe fuel [(1, 0), (0, 5), (1, 1)] = none) := by
  refine ⟨?_, ?_⟩
  · simp [afterPasses, passLoop_cons, passLoop_nil, merge_lists, keyLe]
  · intro fuel
    exact sortLoop_none keyLe fuel 1 [(1, 0), (0, 5), (1, 1)] (by simp)

/-! ## to_vector, construction from a sequence, operator== -/

theorem to_vectorLoop_eq {α : Type} (result current : List α) :
    to_vectorLoop result current = result ++ current := by
  induction current generalizing result with
  | nil => simp [to_vectorLoop]
  | cons value next ih => simp [to_vectorLoop, ih]

theorem to_vector_eq {α : Type} (head : List α) : to_vector head = head := by
  simp [to_vector, to_vectorLoop_eq]

theorem initLoop_eq {α : Type} (pending head : List α) :
    initLoop pending head = pending.reverse ++ head := by
  induction pending generalizing head with
  | nil => simp [initLoop]
  | cons value pending ih => simp [initLoop, ih, push_front]

theorem fromInitializerList_eq {α : Type} (init : List α) :
    fromInitializerList init = init := by
  simp [fromInitializerList, initLoop_eq]

theorem operator_eq_self {α : Type} (ne : α → α → Bool) (hrefl : ∀ a, ne a a = false)
    (l : List α) : operator_eq ne l l = true := by
  induction l with
  | nil => rfl
  | cons x l ih => simp [operator_eq, hrefl x, ih]

/-- C11: round trip.  For an element `!=` that is false on an element and
itself, the container constructed from `to_vector()` of a chain `L` is
reported equal to `L` by `operator==` (it is the chain `L`), `to_vector()` of
the container constructed from a sequence `s` is `s`, and the first listed
element is the first node. -/
theorem round_trip {α : Type} (ne : α → α → Bool) (hrefl : ∀ a, ne a a = false)
    (L s : List α) :
    operator_eq ne (fromInitializerList (to_vector L)) L = true
    ∧ fromInitializerList (to_vector L) = L
    ∧ to_vector (fromInitializerList s) = s
    ∧ (fromInitializerList s).head? = s.head?
    ∧ to_vector L = L := by
  refine ⟨?_, ?_, ?_, ?_, to_vector_eq L⟩
  · rw [to_vector_eq, fromInitializerList_eq]
    exact operator_eq_self ne hrefl L
  · rw [to_vector_eq, fromInitializerList_eq]
  · rw [fromInitializerList_eq, to_vector_eq]
  · rw [fromInitializerList_eq]

/-- C11 at a concrete chain: `[3,1,2]` with the `!=` of `Nat`. -/
theorem round_trip_witness :
    operator_eq natNe (fromInitializerList (to_vector [3, 1, 2])) [3, 1, 2] = true
    ∧ fromInitializerList (to_vector [3, 1, 2]) = [3, 1, 2]
    ∧ to_vector (fromInitializerList [3, 1, 2]) = [3, 1, 2]
    ∧ (fromInitializerList [3, 1, 2]).head? = [3, 1, 2].head?
    ∧ to_vector [3, 1, 2] = [3, 1, 2] :=
  round_trip natNe (by intro a; simp [natNe]) [3, 1, 2] [3, 1, 2]

theorem operator_eq_iff_forall {α : Type} (eq ne : α → α → Bool)
    (hne : ∀ a b, ne a b = !eq a b) (A B : List α) :
    operator_eq ne A B = true ↔
      A.length = B.length ∧
      ∀ i (hA : i < A.length) (hB : i < B.length),
        eq (A.get ⟨i, hA⟩) (B.get ⟨i, hB⟩) = true := by
  induction A generalizing B with
  | nil =>
    cases B with
    | nil => simp [operator_eq]
    | cons y b => simp [operator_eq]
  | cons x a ih =>
    cases B with
    | nil => simp [operator_eq]
    | cons y b =>
      simp only [operator_eq, hne x y, List.length_cons, Nat.add_right_cancel_iff]
      cases hxy : eq x y with
      | false =>
        simp only [Bool.not_false, if_true, Bool.false_eq_true, false_iff, not_and, not_forall]
        intro _
        exact ⟨0, Nat.succ_pos _, Nat.succ_pos _, by simp [hxy]⟩
      | true =>
        simp only [Bool.not_true, Bool.false_eq_true, if_false]
        rw [ih b]
        constructor
        · rintro ⟨hlen, hall⟩
          refine ⟨hlen, ?_⟩
          intro i hA hB
          cases i with
          | zero => simpa using hxy
          | succ j =>
            simpa using hall j (Nat.lt_of_succ_lt_succ hA) (Nat.lt_of_succ_lt_succ hB)
        · rintro ⟨hlen, hall⟩
          refine ⟨hlen, ?_⟩
          intro i hA hB
          simpa using hall (i + 1) (Nat.succ_lt_succ hA) (Nat.succ_lt_succ hB)

theorem operator_eq_append_left {α : Type} (ne : α → α → Bool) (A suffix : List α)
    (h : suffix ≠ []) : operator_eq ne A (A ++ suffix) = false := by
  induction A with
  | nil =>
    cases suffix with
    | nil => exact absurd rfl h
    | cons y b => rfl
  | cons x a ih =>
    rw [List.cons_append, operator_eq]
    cases ne x x with
    | true => rfl
    | false => simpa using ih

theorem operator_eq_append_right {α : Type} (ne : α → α → Bool) (A suffix : List α)
    (h : suffix ≠ []) : operator_eq ne (A ++ suffix) A = false := by
  induction A with
  | nil =>
    cases suffix with
    | nil => exact absurd rfl h
    | cons y b => rfl
  | cons x a ih =>
    rw [List.cons_append, operator_eq]
    cases ne x x with
    | true => rfl
    | false => simpa using ih

/-- C12: for an element `!=` that is the negation of the element `==`,
`operator==` on two chains is true exactly when they have the same length and
the elements at every index are equal; `operator!=` is its negation; a chain
and a proper extension of it are not equal, in either order. -/
theorem operator_eq_spec {α : Type} (eq ne : α → α → Bool)
    (hne : ∀ a b, ne a b = !eq a b) (A B : List α) :
    (operator_eq ne A B = true ↔
      A.length = B.length ∧
      ∀ i (hA : i < A.length) (hB : i < B.length),
        eq (A.get ⟨i, hA⟩) (B.get ⟨i, hB⟩) = true)
    ∧ operator_ne ne A B = !operator_eq ne A B
    ∧ (∀ suffix, suffix ≠ [] →
        operator_eq ne A (A ++ suffix) = false ∧ operator_eq ne (A ++ suffix) A = false) :=
  ⟨operator_eq_iff_forall eq ne hne A B, rfl,
    fun suffix h => ⟨operator_eq_append_left ne A suffix h,
      operator_eq_append_right ne A suffix h⟩⟩

/-- C12 at concrete chains: `[1,2]` against `[1,2,3]` with `==` and `!=` of
`Nat`. -/
theorem operator_eq_spec_witness :
    (operator_eq natNe [1, 2] [1, 2, 3] = true ↔
      [1, 2].length = [1, 2, 3].length ∧
      ∀ i (hA : i < [1, 2].length) (hB : i < [1, 2, 3].length),
        natEq ([1, 2].get ⟨i, hA⟩) ([1, 2, 3].get ⟨i, hB⟩) = true)
    ∧ operator_ne natNe [1, 2] [1, 2, 3] = !operator_eq natNe [1, 2] [1, 2, 3]
    ∧ (∀ suffix, suffix ≠ [] →
        operator_eq natNe [1, 2] ([1, 2] ++ suffix) = false
        ∧ operator_eq natNe ([1, 2] ++ suffix) [1, 2] = false) :=
  operator_eq_spec natEq natNe (by intro a b; simp [natEq, natNe]) [1, 2] [1, 2, 3]

/-! ## erase_after and insert_after -/

theorem erase_after_iterator_none {α : Type} (head : List α) :
    erase_after_iterator head none
      = ⟨Except.error (Error.out_of_range "Nothing to erase after this iterator"), head⟩ :=
  rfl

theorem erase_after_iterator_some {α : Type} (head : List α) (i : Fin head.length) :
    erase_after_iterator head (some i)
      = if i.val + 1 < head.length then ⟨Except.ok (), head.eraseIdx (i.val + 1)⟩
        else ⟨Except.error (Error.out_of_range "Nothing to erase after this iterator"),
          head⟩ := by
  unfold erase_after_iterator
  simp only
  split
  · next h =>
    have hle := List.drop_eq_nil_iff.1 h
    rw [if_neg (by omega)]
  · next t after h =>
    have hlt : i.val + 1 < head.length := by
      by_contra hc
      rw [List.drop_eq_nil_iff.2 (Nat.le_of_not_lt hc)] at h
      cases h
    have hafter : after = head.drop (i.val + 1 + 1) := by
      have h2 := congrArg List.tail h
      rw [List.tail_drop, List.tail_cons] at h2
      exact h2.symm
    rw [if_pos hlt, List.eraseIdx_eq_take_drop_succ, hafter]

/-- C13: `erase_after(iterator)` throws its exception exactly when the
iterator is `end()` or points to the last node.  For an iterator to the node
at index `i` with `i + 1 < n` it returns and leaves the chain without the
element at index `i + 1`: the length is `n - 1`, the elements at indices up
to `i` are in place and every later element has moved one index down. -/
theorem erase_after_iterator_spec {α : Type} (head : List α) (pos : Cursor head) :
    ((erase_after_iterator head pos).result
        = Except.error (Error.out_of_range "Nothing to erase after this iterator")
      ↔ (pos = none ∨ ∃ i : Fin head.length, pos = some i ∧ i.val + 1 = head.length))
    ∧ (∀ i : Fin head.length, pos = some i → i.val + 1 < head.length →
        (erase_after_iterator head pos).result = Except.ok ()
        ∧ (erase_after_iterator head pos).chain = head.eraseIdx (i.val + 1)
        ∧ (erase_after_iterator head pos).chain.length = head.length - 1
        ∧ (∀ j, j < i.val + 1 →
            (erase_after_iterator head pos).chain[j]? = head[j]?)
        ∧ (∀ j, i.val + 1 ≤ j →
            (erase_after_iterator head pos).chain[j]? = head[j + 1]?)) := by
  constructor
  · cases pos with
    | none => simp [erase_after_iterator_none]
    | some i =>
      rw [erase_after_iterator_some]
      by_cases h : i.val + 1 < head.length
      · rw [if_pos h]
        simp only [reduceCtorEq, false_iff, not_or, not_exists, not_and]
        refine ⟨by simp, ?_⟩
        intro k hk
        cases (Option.some.inj hk)
        omega
      · rw [if_neg h]
        simp only [true_iff]
        exact Or.inr ⟨i, rfl, by have := i.isLt; omega⟩
  · intro i hpos hlt
    subst hpos
    rw [erase_after_iterator_some, if_pos hlt]
    refine ⟨rfl, rfl, ?_, ?_, ?_⟩
    · exact List.length_eraseIdx_of_lt hlt
    · intro j hj
      exact List.getElem?_eraseIdx_of_lt head (i.val + 1) j hj
    · intro j hj
      exact List.getElem?_eraseIdx_of_ge head (i.val + 1) j hj

theorem eraseAfterWalk_eq {α : Type} (steps : Nat) (current : List α) :
    eraseAfterWalk steps current
      = if steps + 1 < current.length then Except.ok (current.eraseIdx (steps + 1))
        else if current.length < steps then
          Except.error (Error.out_of_range "Position out of range")
        else Except.error (Error.out_of_range "Nothing to erase after this position") := by
  induction steps generalizing current with
  | zero =>
    match current with
    | [] => simp [eraseAfterWalk]
    | [_] => simp [eraseAfterWalk]
    | value :: _ :: after => simp [eraseAfterWalk]
  | succ k ih =>
    cases current with
    | nil => simp [eraseAfterWalk]
    | cons value next =>
      rw [eraseAfterWalk, ih next]
      by_cases h1 : k + 1 < next.length
      · have h2 : k + 1 + 1 < (value :: next).length := by simpa using h1
        rw [if_pos h1, if_pos h2]
        simp
      · have h2 : ¬ k + 1 + 1 < (value :: next).length := by simpa using h1
        rw [if_neg h1, if_neg h2]
        by_cases h3 : next.length < k
        · have h4 : (value :: next).length < k + 1 := by simpa using h3
          rw [if_pos h3, if_pos h4]
        · have h4 : ¬ (value :: next).length < k + 1 := by simpa using h3
          rw [if_neg h3, if_neg h4]

/-- C14: `erase_after(size_type k)` throws `std::out_of_range` exactly when
`k + 1 >= n`; otherwise it returns and leaves the chain without the element
at index `k + 1`, every other element in its order.  Index 5 on a chain of
three elements throws. -/
theorem erase_after_position_spec {α : Type} (head : List α) (k : Nat) :
    ((∃ what, (erase_after_position head k).result
        = Except.error (Error.out_of_range what)) ↔ head.length ≤ k + 1)
    ∧ (k + 1 < head.length →
        (erase_after_position head k).result = Except.ok ()
        ∧ (erase_after_position head k).chain = head.eraseIdx (k + 1)
        ∧ (erase_after_position head k).chain.length = head.length - 1
        ∧ (∀ j, j < k + 1 → (erase_after_position head k).chain[j]? = head[j]?)
        ∧ (∀ j, k + 1 ≤ j → (erase_after_position head k).chain[j]? = head[j + 1]?))
    ∧ (erase_after_position [1, 2, 3] 5).result
        = Except.error (Error.out_of_range "Position out of range") := by
  refine ⟨?_, ?_, rfl⟩
  · unfold erase_after_position
    rw [eraseAfterWalk_eq]
    by_cases h : k + 1 < head.length
    · rw [if_pos h]
      simp only [reduceCtorEq, exists_false, false_iff]
      omega
    · rw [if_neg h]
      by_cases h3 : head.length < k
      · rw [if_pos h3]
        exact ⟨fun _ => by omega, fun _ => ⟨_, rfl⟩⟩
      · rw [if_neg h3]
        exact ⟨fun _ => by omega, fun _ => ⟨_, rfl⟩⟩
  · intro hlt
    unfold erase_after_position
    rw [eraseAfterWalk_eq, if_pos hlt]
    refine ⟨rfl, rfl, ?_, ?_, ?_⟩
    · exact List.length_eraseIdx_of_lt hlt
    · intro j hj
      exact List.getElem?_eraseIdx_of_lt head (k + 1) j hj
    · intro j hj
      exact List.getElem?_eraseIdx_of_ge head (k + 1) j hj

/-- C15: `insert_after` with an iterator to the node at index `i` returns an
iterator to a new node at index `i + 1` that holds `v`; the elements at
indices `0..i` are in place before it and the elements formerly at indices
`i+1..n-1` follow it in their order; the length is `n + 1`.  With `end()` it
throws its exception and the chain is as before. -/
theorem insert_after_spec {α : Type} (head : List α) (pos : Cursor head) (v : α) :
    (∀ i : Fin head.length, pos = some i →
        (insert_after head pos v).result = Except.ok (i.val + 1)
        ∧ (insert_after head pos v).chain
            = head.take (i.val + 1) ++ v :: head.drop (i.val + 1)
        ∧ (insert_after head pos v).chain.length = head.length + 1
        ∧ (insert_after head pos v).chain[i.val + 1]? = some v
        ∧ (∀ j, j ≤ i.val → (insert_after head pos v).chain[j]? = head[j]?)
        ∧ (∀ j, i.val + 1 ≤ j → (insert_after head pos v).chain[j + 1]? = head[j]?))
    ∧ ((insert_after head pos v).result
          = Except.error (Error.out_of_range "Invalid iterator") ↔ pos = none)
    ∧ (pos = none → (insert_after head pos v).chain = head) := by
  refine ⟨?_, ?_, ?_⟩
  · intro i hpos
    subst hpos
    have hi := i.isLt
    have hlen : (head.take (i.val + 1)).length = i.val + 1 := by
      rw [List.length_take]
      omega
    refine ⟨rfl, rfl, ?_, ?_, ?_, ?_⟩
    · simp only [insert_after, List.length_append, List.length_cons, List.length_drop, hlen]
      omega
    · simp only [insert_after]
      rw [List.getElem?_append_right (by omega), hlen]
      simp
    · intro j hj
      simp only [insert_after]
      rw [List.getElem?_append_left (by omega), List.getElem?_take_of_lt (by omega)]
    · intro j hj
      simp only [insert_after]
      rw [List.getElem?_append_right (by omega), hlen]
      have hsub : j + 1 - (i.val + 1) = (j - (i.val + 1)) + 1 := by omega
      rw [hsub, List.getElem?_cons_succ, List.getElem?_drop]
      congr 1
      omega
  · cases pos with
    | none => simp [insert_after]
    | some i => simp [insert_after]
  · intro hpos
    subst hpos
    rfl

/-! ## find and contains -/

theorem findLoop_eq_none {α : Type} (eq : α → α → Bool) (value : α) (index : Nat)
    (current : List α) :
    findLoop eq value index current = none ↔ ∀ x ∈ current, eq x value = false := by
  induction current generalizing index with
  | nil => simp [findLoop]
  | cons y next ih =>
    cases h : eq y value with
    | true => simp [findLoop, h]
    | false => simp [findLoop, h, ih (index + 1)]

theorem findLoop_eq_some {α : Type} (eq : α → α → Bool) (value : α) (index : Nat)
    (current : List α) (found : Nat) (h : findLoop eq value index current = some found) :
    index ≤ found
    ∧ (∃ x, current[found - index]? = some x ∧ eq x value = true)
    ∧ (∀ j, j < found - index → ∀ y, current[j]? = some y → eq y value = false) := by
  induction current generalizing index with
  | nil => simp [findLoop] at h
  | cons y next ih =>
    cases hy : eq y value with
    | true =>
      simp only [findLoop, hy, if_true, Option.some.injEq] at h
      subst h
      refine ⟨Nat.le_refl _, ⟨y, by simp, hy⟩, ?_⟩
      intro j hj
      omega
    | false =>
      simp only [findLoop, hy, Bool.false_eq_true, if_false] at h
      obtain ⟨h1, ⟨x, hx, hxv⟩, h3⟩ := ih (index + 1) h
      have hsub : found - index = (found - (index + 1)) + 1 := by omega
      refine ⟨by omega, ⟨x, ?_, hxv⟩, ?_⟩
      · rw [hsub, List.getElem?_cons_succ]
        exact hx
      · intro j hj z hz
        cases j with
        | zero =>
          simp only [List.getElem?_cons_zero, Option.some.injEq] at hz
          subst hz
          exact hy
        | succ j =>
          rw [List.getElem?_cons_succ] at hz
          exact h3 j (by omega) z hz

/-- C16: `find` returns an iterator to the first node whose element equals
the value (every node before it holds an element that does not), and `end()`
exactly when no element equals the value; `contains` is `find != end()`, true
exactly when some element of the chain equals the value. -/
theorem find_contains_spec {α : Type} (eq : α → α → Bool) (v : α) (head : List α) :
    (∀ i, find eq v head = some i →
        i < head.length
        ∧ (∃ x, head[i]? = some x ∧ eq x v = true)
        ∧ (∀ j, j < i → ∀ y, head[j]? = some y → eq y v = false))
    ∧ ((∃ x ∈ head, eq x v = true) → ∃ i, find eq v head = some i)
    ∧ (find eq v head = none ↔ ∀ x ∈ head, eq x v = false)
    ∧ (contains eq v head = true ↔ find eq v head ≠ none)
    ∧ (contains eq v head = true ↔ ∃ x ∈ head, eq x v = true) := by
  have hnone := findLoop_eq_none eq v 0 head
  have hcontains : contains eq v head = true ↔ find eq v head ≠ none := by
    simp [contains]
  have hexists : find eq v head ≠ none ↔ ∃ x ∈ head, eq x v = true := by
    unfold find
    rw [Ne, hnone]
    simp
  refine ⟨?_, ?_, hnone, hcontains, hcontains.trans hexists⟩
  · intro i hi
    obtain ⟨_, ⟨x, hx, hxv⟩, h3⟩ := findLoop_eq_some eq v 0 head i hi
    simp only [Nat.sub_zero] at hx h3
    refine ⟨?_, ⟨x, hx, hxv⟩, h3⟩
    by_contra hge
    rw [List.getElem?_eq_none (Nat.le_of_not_lt hge)] at hx
    cases hx
  · intro hex
    have hne := hexists.2 hex
    cases hf : find eq v head with
    | none => exact absurd hf hne
    | some i => exact ⟨i, rfl⟩

/-! ## front, pop_front and the chain after a throw -/

theorem pop_front_outcome_agrees {α : Type} (head : List α) :
    pop_front head
      = match (pop_front_outcome head).result with
        | Except.ok _ => Except.ok (pop_front_outcome head).chain
        | Except.error e => Except.error e := by
  cases head <;> rfl

/-- C17: `front()` and `pop_front()` throw their exception exactly on the
empty chain; on a chain `x :: rest`, `front()` returns `x` and leaves the
chain as it is, and `pop_front()` leaves `rest`. -/
theorem front_pop_front_spec {α : Type} (head : List α) :
    ((front head).result
        = Except.error (Error.runtime_error "ForwardList is empty") ↔ head = [])
    ∧ ((pop_front_outcome head).result
        = Except.error (Error.runtime_error "ForwardList is empty") ↔ head = [])
    ∧ (pop_front head
        = Except.error (Error.runtime_error "ForwardList is empty") ↔ head = [])
    ∧ (∀ x rest, head = x :: rest →
        (front head).result = Except.ok x
        ∧ (front head).chain = x :: rest
        ∧ (pop_front_outcome head).result = Except.ok ()
        ∧ (pop_front_outcome head).chain = rest
        ∧ pop_front head = Except.ok rest) := by
  cases head with
  | nil => simp [front, pop_front_outcome, pop_front]
  | cons x rest => simp [front, pop_front_outcome, pop_front]

/-- C18: when `front`, `pop_front`, `insert_after`, `erase_after(iterator)`
or `erase_after(size_type)` throws, the chain held when the call ends is the
chain it started with. -/
theorem error_leaves_chain {α : Type} (head : List α) (pos : Cursor head) (v : α)
    (k : Nat) :
    (∀ e, (front head).result = Except.error e → (front head).chain = head)
    ∧ (∀ e, (pop_front_outcome head).result = Except.error e →
        (pop_front_outcome head).chain = head)
    ∧ (∀ e, (insert_after head pos v).result = Except.error e →
        (insert_after head pos v).chain = head)
    ∧ (∀ e, (erase_after_iterator head pos).result = Except.error e →
        (erase_after_iterator head pos).chain = head)
    ∧ (∀ e, (erase_after_position head k).result = Except.error e →
        (erase_after_position head k).chain = head) := by
  refine ⟨?_, ?_, ?_, ?_, ?_⟩
  · intro e h
    cases head with
    | nil => rfl
    | cons x rest => rfl
  · intro e h
    cases head with
    | nil => rfl
    | cons x rest => simp [pop_front_outcome] at h
  · intro e h
    cases pos with
    | none => rfl
    | some i => simp [insert_after] at h
  · intro e h
    cases pos with
    | none => rfl
    | some i =>
      rw [erase_after_iterator_some] at h ⊢
      by_cases hlt : i.val + 1 < head.length
      · rw [if_pos hlt] at h
        simp at h
      · rw [if_neg hlt]
  · intro e h
    unfold erase_after_position at h ⊢
    cases hw : eraseAfterWalk k head with
    | ok chain =>
      rw [hw] at h
      simp at h
    | error e2 => rfl

/-! ## One pass of sort -/

theorem passLoop_fst_append {α : Type} (le : α → α → Bool) (list_size : Nat) (n : Nat) :
    ∀ (result remaining : List α) (did_merge : Bool), remaining.length ≤ n →
      (passLoop le list_size result did_merge remaining).1
        = result ++ (passLoop le list_size [] false remaining).1 := by
  induction n with
  | zero =>
    intro result remaining d h
    cases remaining with
    | nil => simp [passLoop_nil]
    | cons v r => simp at h
  | succ n ih =>
    intro result remaining d h
    cases remaining with
    | nil => simp [passLoop_nil]
    | cons v r =>
      have hlen : (List.drop (list_size - 1 + 1)
          (List.drop (list_size - 1 + 1) (v :: r))).length ≤ n := by
        simp only [List.length_drop, List.length_cons] at h ⊢
        omega
      rw [passLoop_cons, passLoop_cons le list_size [] false, ih _ _ true hlen,
        ih ([] ++ _) _ true hlen]
      simp

theorem sortPass_nil {α : Type} (le : α → α → Bool) (w : Nat) :
    sortPass le w ([] : List α) = [] := by
  simp [sortPass, passLoop_nil]

theorem sortPass_cons {α : Type} (le : α → α → Bool) (w : Nat) (hw : 1 ≤ w)
    (value : α) (rest : List α) :
    sortPass le w (value :: rest)
      = merge_lists le ((value :: rest).take w) (((value :: rest).drop w).take w)
        ++ sortPass le w (((value :: rest).drop w).drop w) := by
  have hw1 : w - 1 + 1 = w := by omega
  unfold sortPass
  rw [passLoop_cons, hw1, passLoop_fst_append le w _ _ _ true (Nat.le_refl _)]
  simp

theorem afterPasses_succ {α : Type} (le : α → α → Bool) (passes list_size : Nat)
    (head : List α) :
    afterPasses le (passes + 1) list_size head
      = afterPasses le passes (list_size * 2 % sizeModulus) (sortPass le list_size head) :=
  rfl

theorem sortPass_perm {α : Type} (le : α → α → Bool) (w : Nat) (head : List α) :
    List.Perm (sortPass le w head) head := by
  have h := passLoop_perm le w head.length [] head false (Nat.le_refl _)
  simpa [sortPass] using h

theorem merge_lists_length {α : Type} (le : α → α → Bool) (a b : List α) :
    (merge_lists le a b).length = a.length + b.length := by
  rw [(merge_lists_perm le a b).length_eq, List.length_append]

theorem nonDecreasing_nil {α : Type} (le : α → α → Bool) :
    NonDecreasing le ([] : List α) := by
  simp [NonDecreasing]

theorem blocksSorted_iff {α : Type} (le : α → α → Bool) (w : Nat) (hw : 1 ≤ w)
    (l : List α) :
    BlocksSorted le w l ↔ ∀ i, NonDecreasing le ((l.drop (i * w)).take w) := by
  constructor
  · intro h i
    by_cases hi : i < l.length
    · exact h i hi
    · have hle : l.length ≤ i * w := by
        have : i * 1 ≤ i * w := Nat.mul_le_mul_left i hw
        omega
      rw [List.drop_of_length_le hle]
      simpa using nonDecreasing_nil le
  · intro h i _
    exact h i

theorem blocks_after_pass {α : Type} (le : α → α → Bool)
    (htotal : ∀ a b, le a b = true ∨ le b a = true) (w : Nat) (hw : 1 ≤ w) (n : Nat) :
    ∀ l : List α, l.length ≤ n →
      (∀ i, NonDecreasing le ((l.drop (i * w)).take w)) →
      ∀ i, NonDecreasing le (((sortPass le w l).drop (i * (2 * w))).take (2 * w)) := by
  induction n with
  | zero =>
    intro l hl _ i
    cases l with
    | nil => simpa [sortPass_nil] using nonDecreasing_nil le
    | cons v r => simp at hl
  | succ n ih =>
    intro l hl hblocks i
    cases l with
    | nil => simpa [sortPass_nil] using nonDecreasing_nil le
    | cons v r =>
      have hM : NonDecreasing le
          (merge_lists le ((v :: r).take w) (((v :: r).drop w).take w)) := by
        apply merge_lists_nonDecreasing le htotal
        · simpa using hblocks 0
        · simpa using hblocks 1
      have hMlen := merge_lists_length le ((v :: r).take w) (((v :: r).drop w).take w)
      simp only [List.length_take, List.length_drop] at hMlen
      have hrest : (((v :: r).drop w).drop w).length ≤ n := by
        simp only [List.length_drop, List.length_cons] at hl ⊢
        omega
      have hblocks2 : ∀ j, NonDecreasing le
          (((((v :: r).drop w).drop w).drop (j * w)).take w) := by
        intro j
        have h := hblocks (j + 2)
        have e : (j + 2) * w = w + w + j * w := by ring
        rw [e] at h
        simpa [List.drop_drop] using h
      have hih := ih _ hrest hblocks2
      rw [sortPass_cons le w hw]
      by_cases hlong : 2 * w ≤ (v :: r).length
      · have hlen2 : (merge_lists le ((v :: r).take w) (((v :: r).drop w).take w)).length
            = 2 * w := by omega
        cases i with
        | zero =>
          rw [Nat.zero_mul, List.drop_zero, List.take_left' hlen2]
          exact hM
        | succ j =>
          have e : (j + 1) * (2 * w)
              = (merge_lists le ((v :: r).take w) (((v :: r).drop w).take w)).length
                + j * (2 * w) := by
            rw [hlen2]
            ring
          rw [e, List.drop_append]
          exact hih j
      · have hnil : ((v :: r).drop w).drop w = [] := by
          rw [List.drop_drop]
          exact List.drop_of_length_le (by omega)
        have hlen2 : (merge_lists le ((v :: r).take w) (((v :: r).drop w).take w)).length
            ≤ 2 * w := by omega
        rw [hnil, sortPass_nil, List.append_nil]
        cases i with
        | zero =>
          rw [Nat.zero_mul, List.drop_zero, List.take_of_length_le hlen2]
          exact hM
        | succ j =>
          have hle : (merge_lists le ((v :: r).take w) (((v :: r).drop w).take w)).length
              ≤ (j + 1) * (2 * w) := by
            have : 1 * (2 * w) ≤ (j + 1) * (2 * w) :=
              Nat.mul_le_mul_right (2 * w) (by omega)
            omega
          rw [List.drop_of_length_le hle]
          simpa using nonDecreasing_nil le

/-- C19: one pass of `sort` merges runs.  For a total `<=` and a run length
`w >= 1`, when every block of `w` consecutive elements of the chain is
non-decreasing, the chain after one pass with run length `w` holds the same
multiset of elements and every block of `2w` consecutive elements of it is
non-decreasing; when `2w` is at least the chain length the whole chain is
non-decreasing. -/
theorem sort_pass_merges_runs {α : Type} (le : α → α → Bool)
    (htotal : ∀ a b, le a b = true ∨ le b a = true) (w : Nat) (hw : 1 ≤ w)
    (head : List α) (hblocks : BlocksSorted le w head) :
    ((sortPass le w head : List α) : Multiset α) = (head : Multiset α)
    ∧ BlocksSorted le (2 * w) (sortPass le w head)
    ∧ (head.length ≤ 2 * w → NonDecreasing le (sortPass le w head)) := by
  have hall := blocks_after_pass le htotal w hw head.length head (Nat.le_refl _)
    ((blocksSorted_iff le w hw head).1 hblocks)
  refine ⟨?_, ?_, ?_⟩
  · rw [Multiset.coe_eq_coe]
    exact sortPass_perm le w head
  · exact (blocksSorted_iff le (2 * w) (by omega) _).2 hall
  · intro hlen
    have h0 := hall 0
    rw [Nat.zero_mul, List.drop_zero, List.take_of_length_le] at h0
    · exact h0
    · rw [(sortPass_perm le w head).length_eq]
      exact hlen

/-- C19 at a concrete chain: run length 2 on `[1,4,2,3,0]`, whose blocks
`[1,4]`, `[2,3]`, `[0]` are non-decreasing. -/
theorem sort_pass_merges_runs_witness :
    ((sortPass natLe 2 [1, 4, 2, 3, 0] : List Nat) : Multiset Nat)
        = (([1, 4, 2, 3, 0] : List Nat) : Multiset Nat)
    ∧ BlocksSorted natLe (2 * 2) (sortPass natLe 2 [1, 4, 2, 3, 0])
    ∧ ([1, 4, 2, 3, 0].length ≤ 2 * 2 →
        NonDecreasing natLe (sortPass natLe 2 [1, 4, 2, 3, 0])) :=
  sort_pass_merges_runs natLe (by intro a b; simp [natLe]; omega) 2 (by decide)
    [1, 4, 2, 3, 0]
    (by
      intro i hi
      simp only [List.length_cons, List.length_nil] at hi
      interval_cases i <;> simp [NonDecreasing, natLe])

/-! ## merge without a sortedness assumption -/

theorem fromSelf_map_fst {α : Type} (A : List α) : (fromSelf A).map Prod.fst = A := by
  simp [fromSelf, Function.comp_def]

theorem fromOther_map_fst {α : Type} (B : List α) : (fromOther B).map Prod.fst = B := by
  simp [fromOther, Function.comp_def]

theorem fromSelf_mark {α : Type} (A : List α) :
    ∀ n ∈ fromSelf A, (fun n : α × Bool => n.2) n = true := by
  intro n hn
  simp only [fromSelf, List.mem_map] at hn
  obtain ⟨v, _, rfl⟩ := hn
  rfl

theorem fromOther_mark {α : Type} (B : List α) :
    ∀ n ∈ fromOther B, (fun n : α × Bool => n.2) n = false := by
  intro n hn
  simp only [fromOther, List.mem_map] at hn
  obtain ⟨v, _, rfl⟩ := hn
  rfl

/-- C20: `merge` on two distinct containers, sorted or not.  The call has no
throw and its loop ends; `other` is left empty; the chain of `this` has
length `|A| + |B|` and holds the multiset sum of the two chains; with the
nodes marked by their origin, the nodes from `A` are the chain `A` in its
order and the nodes from `B` are the chain `B` in its order, so `A` and `B`
are both sublists of the result. -/
theorem merge_unsorted_interleaves {α : Type} (le : α → α → Bool) (A B : List α) :
    (merge le A B).2 = []
    ∧ (merge le A B).1.length = A.length + B.length
    ∧ ((merge le A B).1 : Multiset α) = (A : Multiset α) + (B : Multiset α)
    ∧ ((merge (onValue le) (fromSelf A) (fromOther B)).1).map Prod.fst = (merge le A B).1
    ∧ ((merge (onValue le) (fromSelf A) (fromOther B)).1).filter (fun n => n.2)
        = fromSelf A
    ∧ ((merge (onValue le) (fromSelf A) (fromOther B)).1).filter (fun n => !n.2)
        = fromOther B
    ∧ List.Sublist A (merge le A B).1
    ∧ List.Sublist B (merge le A B).1 := by
  have hself := merge_lists_filter_self (onValue le) (fun n => n.2)
    (fromSelf A) (fromOther B) (fromSelf_mark A) (fromOther_mark B)
  have hother := merge_lists_filter_other (onValue le) (fun n => n.2)
    (fromSelf A) (fromOther B) (fromSelf_mark A) (fromOther_mark B)
  have hmap := merge_lists_map_fst le A B
  rw [merge_fst, merge_fst]
  refine ⟨rfl, merge_lists_length le A B, ?_, hmap, hself, hother, ?_, ?_⟩
  · rw [Multiset.coe_add, Multiset.coe_eq_coe]
    exact merge_lists_perm le A B
  · have h : List.Sublist
        ((merge_lists (onValue le) (fromSelf A) (fromOther B)).filter (fun n => n.2))
        (merge_lists (onValue le) (fromSelf A) (fromOther B)) := List.filter_sublist _
    rw [hself] at h
    have h2 := h.map Prod.fst
    rw [fromSelf_map_fst, hmap] at h2
    exact h2
  · have h : List.Sublist
        ((merge_lists (onValue le) (fromSelf A) (fromOther B)).filter
          (fun v => !(fun n : α × Bool => n.2) v))
        (merge_lists (onValue le) (fromSelf A) (fromOther B)) := List.filter_sublist _
    rw [hother] at h
    have h2 := h.map Prod.fst
    rw [fromOther_map_fst, hmap] at h2
    exact h2

end ForwardList
